import Mathlib

/-!
Verification of the krakel 2-d kd-tree (point insertion, nearest-neighbour
search, radius range queries) against its natural-language specification.

The Rust code is generic over a `Real` scalar type; the embedding instantiates
the scalar with `ℚ`, a linearly ordered field with decidable ordering, so that
all definitions are executable.  `Option<Box<KDNode>>` is modelled by an
inductive tree type whose `leaf` constructor plays the role of `None`.

A central point of the embedding: in `recursive_nearest`,
`recursive_range_query` and `recursive_closure_range_query` the Rust source
writes

  `std::mem::replace(&mut rect.max.at(dir), self.pos.at(dir))`

where `at` returns the coordinate *by value*; the mutable borrow therefore
targets a temporary, so the statement merely reads the old bound and the
shared rectangle is never modified.  The later
`*rect.max.at_mut(dir) = old_value` writes that unchanged value back.  The
embedding reproduces exactly this behaviour: `old_value` is a plain read, and
the "restore" is a field update with the value read before the recursive call.
-/

set_option allowUnsafeReducibility true
attribute [semireducible] Rat.add Rat.sub Rat.mul Rat.neg Rat.normalize Rat.maybeNormalize

set_option maxRecDepth 4000

/-- Scalar type instantiating the `PScalar` of the Rust `PointTrait`. -/
abbrev Scalar : Type := ℚ

/-- `P::DIMENSION` for the 2-d points this crate is built around. -/
def DIMENSION : Nat := 2

/-- A concrete 2-d point satisfying the `PointTrait` contract. -/
structure Pt where
  x : Scalar
  y : Scalar
deriving DecidableEq

/-- `PointTrait::at` (indexed coordinate access; `at` is reserved in Lean,
hence the prime).  All internal call sites use indices `0` and `1` only. -/
def Pt.at' (p : Pt) (i : Nat) : Scalar :=
  if i = 0 then p.x else p.y

/-- `*p.at_mut(i) = v`, as a functional update. -/
def Pt.setAt (p : Pt) (i : Nat) (v : Scalar) : Pt :=
  if i = 0 then { p with x := v } else { p with y := v }

/-- `PointTrait::dist_sq`: squared Euclidean distance. -/
def Pt.dist_sq (a b : Pt) : Scalar :=
  (a.x - b.x) * (a.x - b.x) + (a.y - b.y) * (a.y - b.y)

/-- The single error kind of the crate (`KrakelError::InternalError`). -/
inductive KrakelError where
  | internalError (msg : String)
deriving DecidableEq

/-- `Option<Box<KDNode<P>>>`: `leaf` is Rust's `None`, `node` carries the
fields `pos`, `dir`, `left`, `right` of `KDNode`. -/
inductive KDNode where
  | leaf : KDNode
  | node (pos : Pt) (dir : Nat) (left : KDNode) (right : KDNode) : KDNode
deriving DecidableEq

/-- `HyperRectangle { min, max }`. -/
structure HyperRectangle where
  min : Pt
  max : Pt
deriving DecidableEq

/-- `KDTree { root, rect }` (`root = .leaf` models `root = None`). -/
structure KDTree where
  root : KDNode
  rect : Option HyperRectangle
deriving DecidableEq

/-- `KDTree::default()`: the empty tree. -/
def KDTree.empty : KDTree := { root := .leaf, rect := none }

/-- `KDNode::recursive_insert`, with the `Result` layer stripped (the code
always returns `Ok(())`; the fallible version is `recursive_insertE` below).
At an occupied node the passed `dir` is ignored and `new_dir` is computed
from the node's own `dir`, exactly as in the source. -/
def KDNode.recursive_insert : KDNode → Pt → Nat → Nat → KDNode
  | .leaf, pos, dir, _ => .node pos dir .leaf .leaf
  | .node cpos cdir l r, pos, _, dim =>
    let new_dir := (cdir + 1) % dim
    if pos.at' cdir < cpos.at' cdir then
      .node cpos cdir (KDNode.recursive_insert l pos new_dir dim) r
    else
      .node cpos cdir l (KDNode.recursive_insert r pos new_dir dim)

/-- `KDNode::recursive_insert` with its `Result<(), KrakelError>` kept:
the `?` operator of the source becomes the explicit `match` on the result
of the recursive call. -/
def KDNode.recursive_insertE : KDNode → Pt → Nat → Nat → Except KrakelError KDNode
  | .leaf, pos, dir, _ => Except.ok (.node pos dir .leaf .leaf)
  | .node cpos cdir l r, pos, _, dim =>
    let new_dir := (cdir + 1) % dim
    if pos.at' cdir < cpos.at' cdir then
      match KDNode.recursive_insertE l pos new_dir dim with
      | Except.ok l2 => Except.ok (.node cpos cdir l2 r)
      | Except.error e => Except.error e
    else
      match KDNode.recursive_insertE r pos new_dir dim with
      | Except.ok r2 => Except.ok (.node cpos cdir l r2)
      | Except.error e => Except.error e

/-- `KDTree::sq`. -/
def KDTree.sq (i : Scalar) : Scalar := i * i

/-- One iteration of the `for i in 0..P::DIMENSION` loop of
`KDTree::hyper_rect_dist_sq`. -/
def KDTree.axis_dist_sq (rect : HyperRectangle) (pos : Pt) (i : Nat) : Scalar :=
  let pos_val := pos.at' i
  if pos_val < rect.min.at' i then KDTree.sq (rect.min.at' i - pos_val)
  else if pos_val > rect.max.at' i then KDTree.sq (rect.max.at' i - pos_val)
  else 0

/-- `KDTree::hyper_rect_dist_sq`, the loop unrolled for `DIMENSION = 2`. -/
def KDTree.hyper_rect_dist_sq (rect : HyperRectangle) (pos : Pt) : Scalar :=
  KDTree.axis_dist_sq rect pos 0 + KDTree.axis_dist_sq rect pos 1

/-- One iteration of the per-axis bounding-rectangle expansion loop in
`KDTree::insert`. -/
def KDTree.expandAxis (R : HyperRectangle) (pos : Pt) (i : Nat) : HyperRectangle :=
  if pos.at' i < R.min.at' i then { R with min := R.min.setAt i (pos.at' i) }
  else if pos.at' i > R.max.at' i then { R with max := R.max.setAt i (pos.at' i) }
  else R

/-- `KDTree::insert`, with the `Result` layer stripped (see `insertE`). -/
def KDTree.insert (t : KDTree) (pos : Pt) : KDTree :=
  let root2 := KDNode.recursive_insert t.root pos 0 DIMENSION
  match t.rect with
  | none => { root := root2, rect := some { min := pos, max := pos } }
  | some R =>
    { root := root2, rect := some (KDTree.expandAxis (KDTree.expandAxis R pos 0) pos 1) }

/-- `KDTree::insert` with its `Result<(), KrakelError>` kept; the mutated
tree is returned inside the `ok` constructor. -/
def KDTree.insertE (t : KDTree) (pos : Pt) : Except KrakelError KDTree :=
  match KDNode.recursive_insertE t.root pos 0 DIMENSION with
  | Except.error e => Except.error e
  | Except.ok root2 =>
    match t.rect with
    | none => Except.ok { root := root2, rect := some { min := pos, max := pos } }
    | some R =>
      Except.ok { root := root2, rect := some (KDTree.expandAxis (KDTree.expandAxis R pos 0) pos 1) }

/-- The tree obtained by inserting the points of `ps` in order into the
empty tree. -/
def buildTree (ps : List Pt) : KDTree := ps.foldl KDTree.insert KDTree.empty

/-- The pair of `&mut` accumulators of `recursive_nearest`:
`result` and `result_dist_sq`. -/
structure NNAcc where
  result : Option Pt
  result_dist_sq : Scalar
deriving DecidableEq

/-- `KDNode::recursive_nearest`, state-passing.  `old_value` is a plain read
(the `mem::replace` in the source mutates only a temporary), and the restore
line writes that value back into the rectangle returned by the nearer
recursion.  Recursing into a `leaf` is the identity, which models the
`if let Some(..)` guards of the source. -/
def KDNode.recursive_nearest (pos : Pt) :
    KDNode → NNAcc → HyperRectangle → NNAcc × HyperRectangle
  | .leaf, acc, rect => (acc, rect)
  | .node npos dir l r, acc, rect =>
    if pos.at' dir ≤ npos.at' dir then
      let old_value := rect.max.at' dir
      let s1 := KDNode.recursive_nearest pos l acc rect
      let rect2 : HyperRectangle := { s1.2 with max := s1.2.max.setAt dir old_value }
      let dsq := Pt.dist_sq npos pos
      let acc2 : NNAcc :=
        if dsq < s1.1.result_dist_sq then { result := some npos, result_dist_sq := dsq } else s1.1
      if KDTree.hyper_rect_dist_sq rect2 pos < acc2.result_dist_sq then
        KDNode.recursive_nearest pos r acc2 rect2
      else (acc2, rect2)
    else
      let old_value := rect.min.at' dir
      let s1 := KDNode.recursive_nearest pos r acc rect
      let rect2 : HyperRectangle := { s1.2 with min := s1.2.min.setAt dir old_value }
      let dsq := Pt.dist_sq npos pos
      let acc2 : NNAcc :=
        if dsq < s1.1.result_dist_sq then { result := some npos, result_dist_sq := dsq } else s1.1
      if KDTree.hyper_rect_dist_sq rect2 pos < acc2.result_dist_sq then
        KDNode.recursive_nearest pos l acc2 rect2
      else (acc2, rect2)

/-- `KDTree::nearest`.  The `root = Some, rect = None` branch is unreachable
for trees built by `insert` (the source `unwrap`s there); the model returns
`none` in that junk branch. -/
def KDTree.nearest (t : KDTree) (pos : Pt) : Option Pt :=
  match t.root, t.rect with
  | .leaf, _ => none
  | .node npos dir l r, some rect0 =>
    let acc0 : NNAcc := { result := some npos, result_dist_sq := Pt.dist_sq npos pos }
    ((KDNode.recursive_nearest pos (.node npos dir l r) acc0 rect0).1).result
  | .node _ _ _ _, none => none

/-- `KDNode::recursive_range_query`, state-passing (`results` is the `&mut
Vec<P>`, pushed at the back). -/
def KDNode.recursive_range_query (pos : Pt) (radius_sq : Scalar) :
    KDNode → List Pt → HyperRectangle → List Pt × HyperRectangle
  | .leaf, results, rect => (results, rect)
  | .node npos dir l r, results, rect =>
    if pos.at' dir ≤ npos.at' dir then
      let old_value := rect.max.at' dir
      let s1 := KDNode.recursive_range_query pos radius_sq l results rect
      let rect2 : HyperRectangle := { s1.2 with max := s1.2.max.setAt dir old_value }
      let res2 := if Pt.dist_sq npos pos ≤ radius_sq then s1.1 ++ [npos] else s1.1
      if KDTree.hyper_rect_dist_sq rect2 pos ≤ radius_sq then
        KDNode.recursive_range_query pos radius_sq r res2 rect2
      else (res2, rect2)
    else
      let old_value := rect.min.at' dir
      let s1 := KDNode.recursive_range_query pos radius_sq r results rect
      let rect2 : HyperRectangle := { s1.2 with min := s1.2.min.setAt dir old_value }
      let res2 := if Pt.dist_sq npos pos ≤ radius_sq then s1.1 ++ [npos] else s1.1
      if KDTree.hyper_rect_dist_sq rect2 pos ≤ radius_sq then
        KDNode.recursive_range_query pos radius_sq l res2 rect2
      else (res2, rect2)

/-- `KDTree::range_query` (note the `radius * radius` passed down). -/
def KDTree.range_query (t : KDTree) (pos : Pt) (radius : Scalar) : List Pt :=
  match t.root, t.rect with
  | .leaf, _ => []
  | .node npos dir l r, some rect0 =>
    (KDNode.recursive_range_query pos (radius * radius) (.node npos dir l r) [] rect0).1
  | .node _ _ _ _, none => []

/-- `KDNode::recursive_closure_range_query`.  The `FnMut(&P)` callback
mutating its captured environment is modelled by explicit state passing:
`process : σ → Pt → σ` applied to a threaded state. -/
def KDNode.recursive_closure_range_query {σ : Type} (pos : Pt) (radius_sq : Scalar)
    (process : σ → Pt → σ) :
    KDNode → σ → HyperRectangle → σ × HyperRectangle
  | .leaf, s, rect => (s, rect)
  | .node npos dir l r, s, rect =>
    if pos.at' dir ≤ npos.at' dir then
      let old_value := rect.max.at' dir
      let s1 := KDNode.recursive_closure_range_query pos radius_sq process l s rect
      let rect2 : HyperRectangle := { s1.2 with max := s1.2.max.setAt dir old_value }
      let s2 := if Pt.dist_sq npos pos ≤ radius_sq then process s1.1 npos else s1.1
      if KDTree.hyper_rect_dist_sq rect2 pos ≤ radius_sq then
        KDNode.recursive_closure_range_query pos radius_sq process r s2 rect2
      else (s2, rect2)
    else
      let old_value := rect.min.at' dir
      let s1 := KDNode.recursive_closure_range_query pos radius_sq process r s rect
      let rect2 : HyperRectangle := { s1.2 with min := s1.2.min.setAt dir old_value }
      let s2 := if Pt.dist_sq npos pos ≤ radius_sq then process s1.1 npos else s1.1
      if KDTree.hyper_rect_dist_sq rect2 pos ≤ radius_sq then
        KDNode.recursive_closure_range_query pos radius_sq process l s2 rect2
      else (s2, rect2)

/-- `KDTree::closure_range_query`. -/
def KDTree.closure_range_query {σ : Type} (t : KDTree) (pos : Pt) (radius : Scalar)
    (process : σ → Pt → σ) (s : σ) : σ :=
  match t.root, t.rect with
  | .leaf, _ => s
  | .node npos dir l r, some rect0 =>
    (KDNode.recursive_closure_range_query pos (radius * radius) process
      (.node npos dir l r) s rect0).1
  | .node _ _ _ _, none => s

/-- Multiset of the positions stored in a subtree. -/
def KDNode.points : KDNode → Multiset Pt
  | .leaf => 0
  | .node p _ l r => p ::ₘ (KDNode.points l + KDNode.points r)

/-- `p` lies inside or on the boundary of `R`. -/
def inRect (R : HyperRectangle) (p : Pt) : Prop :=
  R.min.x ≤ p.x ∧ p.x ≤ R.max.x ∧ R.min.y ≤ p.y ∧ p.y ≤ R.max.y

instance (R : HyperRectangle) (p : Pt) : Decidable (inRect R p) := by
  unfold inRect; infer_instance

example : buildTree [] = KDTree.empty := rfl

example :
    (buildTree [⟨4,6⟩, ⟨10,8⟩, ⟨18,12⟩, ⟨8,14⟩, ⟨16,2⟩, ⟨14,4⟩]).nearest ⟨15, 7⟩
      = some ⟨14, 4⟩ := by decide

example :
    (buildTree [⟨4,6⟩, ⟨10,8⟩, ⟨18,12⟩, ⟨8,14⟩, ⟨16,2⟩, ⟨14,4⟩]).range_query ⟨15, 7⟩ 6
      = [⟨14,4⟩, ⟨16,2⟩, ⟨10,8⟩, ⟨18,12⟩] := by decide

example : (buildTree [⟨0,0⟩]).range_query ⟨0,0⟩ (-1) = [⟨0,0⟩] := by decide

@[simp] theorem Pt.at'_zero (p : Pt) : p.at' 0 = p.x := rfl

@[simp] theorem Pt.at'_one (p : Pt) : p.at' 1 = p.y := by
  simp [Pt.at']

@[simp] theorem Pt.setAt_at_self (p : Pt) (i : Nat) : p.setAt i (p.at' i) = p := by
  by_cases h : i = 0 <;> simp [Pt.setAt, Pt.at', h]

theorem Pt.dist_sq_comm (a b : Pt) : Pt.dist_sq a b = Pt.dist_sq b a := by
  unfold Pt.dist_sq; ring

@[simp] theorem HyperRectangle.eta (R : HyperRectangle) :
    ({ min := R.min, max := R.max } : HyperRectangle) = R := rfl

/-- `recursive_nearest` with the rectangle as a plain (never-written) parameter:
since the `mem::replace` of the source acts on a temporary, this is the
de-facto algorithm the code runs. -/
def KDNode.nearestNoNarrow (pos : Pt) (rect : HyperRectangle) : KDNode → NNAcc → NNAcc
  | .leaf, acc => acc
  | .node npos dir l r, acc =>
    if pos.at' dir ≤ npos.at' dir then
      let acc1 := KDNode.nearestNoNarrow pos rect l acc
      let dsq := Pt.dist_sq npos pos
      let acc2 : NNAcc :=
        if dsq < acc1.result_dist_sq then { result := some npos, result_dist_sq := dsq } else acc1
      if KDTree.hyper_rect_dist_sq rect pos < acc2.result_dist_sq then
        KDNode.nearestNoNarrow pos rect r acc2
      else acc2
    else
      let acc1 := KDNode.nearestNoNarrow pos rect r acc
      let dsq := Pt.dist_sq npos pos
      let acc2 : NNAcc :=
        if dsq < acc1.result_dist_sq then { result := some npos, result_dist_sq := dsq } else acc1
      if KDTree.hyper_rect_dist_sq rect pos < acc2.result_dist_sq then
        KDNode.nearestNoNarrow pos rect l acc2
      else acc2

/-- `recursive_range_query` with the rectangle as a plain parameter. -/
def KDNode.rangeNoNarrow (pos : Pt) (radius_sq : Scalar) (rect : HyperRectangle) :
    KDNode → List Pt → List Pt
  | .leaf, results => results
  | .node npos dir l r, results =>
    if pos.at' dir ≤ npos.at' dir then
      let res1 := KDNode.rangeNoNarrow pos radius_sq rect l results
      let res2 := if Pt.dist_sq npos pos ≤ radius_sq then res1 ++ [npos] else res1
      if KDTree.hyper_rect_dist_sq rect pos ≤ radius_sq then
        KDNode.rangeNoNarrow pos radius_sq rect r res2
      else res2
    else
      let res1 := KDNode.rangeNoNarrow pos radius_sq rect r results
      let res2 := if Pt.dist_sq npos pos ≤ radius_sq then res1 ++ [npos] else res1
      if KDTree.hyper_rect_dist_sq rect pos ≤ radius_sq then
        KDNode.rangeNoNarrow pos radius_sq rect l res2
      else res2

/-- `recursive_closure_range_query` with the rectangle as a plain parameter. -/
def KDNode.closureNoNarrow {σ : Type} (pos : Pt) (radius_sq : Scalar)
    (process : σ → Pt → σ) (rect : HyperRectangle) : KDNode → σ → σ
  | .leaf, s => s
  | .node npos dir l r, s =>
    if pos.at' dir ≤ npos.at' dir then
      let s1 := KDNode.closureNoNarrow pos radius_sq process rect l s
      let s2 := if Pt.dist_sq npos pos ≤ radius_sq then process s1 npos else s1
      if KDTree.hyper_rect_dist_sq rect pos ≤ radius_sq then
        KDNode.closureNoNarrow pos radius_sq process rect r s2
      else s2
    else
      let s1 := KDNode.closureNoNarrow pos radius_sq process rect r s
      let s2 := if Pt.dist_sq npos pos ≤ radius_sq then process s1 npos else s1
      if KDTree.hyper_rect_dist_sq rect pos ≤ radius_sq then
        KDNode.closureNoNarrow pos radius_sq process rect l s2
      else s2

/-- The attempted save/narrow/restore of `recursive_nearest` is a no-op: the
call equals the fixed-rectangle search and returns its rectangle unchanged. -/
theorem recursive_nearest_eq_noNarrow (pos : Pt) (n : KDNode) : ∀ (acc : NNAcc)
    (rect : HyperRectangle),
    KDNode.recursive_nearest pos n acc rect = (KDNode.nearestNoNarrow pos rect n acc, rect) := by
  induction n with
  | leaf => intro acc rect; rfl
  | node npos dir l r ihl ihr =>
    intro acc rect
    by_cases h : pos.at' dir ≤ npos.at' dir <;>
      simp [KDNode.recursive_nearest, KDNode.nearestNoNarrow, h, ihl, ihr] <;> (repeat' split) <;> rfl

/-- Same fact for `recursive_range_query`. -/
theorem recursive_range_query_eq_noNarrow (pos : Pt) (radius_sq : Scalar) (n : KDNode) :
    ∀ (results : List Pt) (rect : HyperRectangle),
    KDNode.recursive_range_query pos radius_sq n results rect =
      (KDNode.rangeNoNarrow pos radius_sq rect n results, rect) := by
  induction n with
  | leaf => intro results rect; rfl
  | node npos dir l r ihl ihr =>
    intro results rect
    by_cases h : pos.at' dir ≤ npos.at' dir <;>
      simp [KDNode.recursive_range_query, KDNode.rangeNoNarrow, h, ihl, ihr] <;> (repeat' split) <;> rfl

/-- Same fact for `recursive_closure_range_query`. -/
theorem recursive_closure_range_query_eq_noNarrow {σ : Type} (pos : Pt) (radius_sq : Scalar)
    (process : σ → Pt → σ) (n : KDNode) : ∀ (s : σ) (rect : HyperRectangle),
    KDNode.recursive_closure_range_query pos radius_sq process n s rect =
      (KDNode.closureNoNarrow pos radius_sq process rect n s, rect) := by
  induction n with
  | leaf => intro s rect; rfl
  | node npos dir l r ihl ihr =>
    intro s rect
    by_cases h : pos.at' dir ≤ npos.at' dir <;>
      simp [KDNode.recursive_closure_range_query, KDNode.closureNoNarrow, h, ihl, ihr] <;> (repeat' split) <;> rfl

theorem KDTree.axis_dist_sq_nonneg (R : HyperRectangle) (q : Pt) (i : Nat) :
    0 ≤ KDTree.axis_dist_sq R q i := by
  simp only [KDTree.axis_dist_sq, KDTree.sq]
  split_ifs <;> first | exact mul_self_nonneg _ | exact le_refl 0

theorem KDTree.hyper_rect_dist_sq_nonneg (R : HyperRectangle) (q : Pt) :
    0 ≤ KDTree.hyper_rect_dist_sq R q := by
  have h0 := KDTree.axis_dist_sq_nonneg R q 0
  have h1 := KDTree.axis_dist_sq_nonneg R q 1
  unfold KDTree.hyper_rect_dist_sq
  linarith

theorem KDTree.axis_dist_sq_le (R : HyperRectangle) (q p : Pt) (i : Nat)
    (h1 : R.min.at' i ≤ p.at' i) (h2 : p.at' i ≤ R.max.at' i) :
    KDTree.axis_dist_sq R q i ≤ KDTree.sq (p.at' i - q.at' i) := by
  simp only [KDTree.axis_dist_sq, KDTree.sq]
  split_ifs with ha hb
  · nlinarith
  · nlinarith
  · nlinarith [mul_self_nonneg (p.at' i - q.at' i)]

/-- `hyper_rect_dist_sq` is a lower bound on the squared distance from `q` to
any point `p` inside the rectangle: the basis of all pruning decisions. -/
theorem KDTree.hyper_rect_dist_sq_le (R : HyperRectangle) (q p : Pt) (hp : inRect R p) :
    KDTree.hyper_rect_dist_sq R q ≤ Pt.dist_sq p q := by
  obtain ⟨h1, h2, h3, h4⟩ := hp
  have hx := KDTree.axis_dist_sq_le R q p 0 (by simpa) (by simpa)
  have hy := KDTree.axis_dist_sq_le R q p 1 (by simpa) (by simpa)
  unfold KDTree.hyper_rect_dist_sq
  unfold KDTree.sq at hx hy
  simp only [Pt.at'_zero, Pt.at'_one] at hx hy
  unfold Pt.dist_sq
  linarith

theorem KDTree.axis_dist_sq_eq_zero_iff (R : HyperRectangle) (q : Pt) (i : Nat) :
    KDTree.axis_dist_sq R q i = 0 ↔ (R.min.at' i ≤ q.at' i ∧ q.at' i ≤ R.max.at' i) := by
  simp only [KDTree.axis_dist_sq, KDTree.sq]
  split_ifs with ha hb
  · constructor
    · intro h; nlinarith
    · intro h; linarith [h.1]
  · constructor
    · intro h; nlinarith
    · intro h; linarith [h.2]
  · exact ⟨fun _ => ⟨le_of_not_lt ha, le_of_not_lt hb⟩, fun _ => rfl⟩

/-- `hyper_rect_dist_sq` vanishes exactly on the (closed) rectangle. -/
theorem KDTree.hyper_rect_dist_sq_eq_zero_iff (R : HyperRectangle) (q : Pt) :
    KDTree.hyper_rect_dist_sq R q = 0 ↔ inRect R q := by
  unfold KDTree.hyper_rect_dist_sq
  rw [add_eq_zero_iff_of_nonneg (KDTree.axis_dist_sq_nonneg R q 0)
    (KDTree.axis_dist_sq_nonneg R q 1)]
  rw [KDTree.axis_dist_sq_eq_zero_iff, KDTree.axis_dist_sq_eq_zero_iff]
  unfold inRect
  simp only [Pt.at'_zero, Pt.at'_one]
  tauto

theorem KDNode.points_recursive_insert (p : Pt) : ∀ (n : KDNode) (d m : Nat),
    (KDNode.recursive_insert n p d m).points = p ::ₘ n.points := by
  intro n
  induction n with
  | leaf => intro d m; rfl
  | node cpos cdir l r ihl ihr =>
    intro d m
    by_cases h : p.at' cdir < cpos.at' cdir <;>
      simp [KDNode.recursive_insert, KDNode.points, h, ihl, ihr] <;>
      simp [Multiset.cons_swap]

theorem KDNode.recursive_insert_ne_leaf (n : KDNode) (p : Pt) (d m : Nat) :
    KDNode.recursive_insert n p d m ≠ .leaf := by
  cases n <;> simp [KDNode.recursive_insert]
  split <;> simp

theorem KDTree.insert_root_points (t : KDTree) (p : Pt) :
    ((t.insert p).root).points = p ::ₘ t.root.points := by
  unfold KDTree.insert
  cases t.rect <;> simp [KDNode.points_recursive_insert]

theorem foldl_insert_points (ps : List Pt) : ∀ (t : KDTree),
    ((ps.foldl KDTree.insert t).root).points = t.root.points + (ps : Multiset Pt) := by
  induction ps with
  | nil => intro t; simp
  | cons p ps ih =>
    intro t
    simp [List.foldl_cons, ih, KDTree.insert_root_points, ← Multiset.cons_coe,
      Multiset.add_cons]

/-- The multiset of points stored in a built tree is the multiset of inserted
points. -/
theorem buildTree_points (ps : List Pt) :
    ((buildTree ps).root).points = (ps : Multiset Pt) := by
  unfold buildTree
  simp [foldl_insert_points, KDTree.empty, KDNode.points]

@[simp] theorem KDNode.points_leaf : KDNode.points .leaf = 0 := rfl

@[simp] theorem KDNode.points_node (p : Pt) (d : Nat) (l r : KDNode) :
    (KDNode.node p d l r).points = p ::ₘ (l.points + r.points) := rfl

/-- The list of points a range query emits from a subtree (the delta appended
to the accumulator `results`). -/
def KDNode.rangeList (pos : Pt) (radius_sq : Scalar) (rect : HyperRectangle) :
    KDNode → List Pt
  | .leaf => []
  | .node npos dir l r =>
    if pos.at' dir ≤ npos.at' dir then
      KDNode.rangeList pos radius_sq rect l
        ++ (if Pt.dist_sq npos pos ≤ radius_sq then [npos] else [])
        ++ (if KDTree.hyper_rect_dist_sq rect pos ≤ radius_sq then
              KDNode.rangeList pos radius_sq rect r
            else [])
    else
      KDNode.rangeList pos radius_sq rect r
        ++ (if Pt.dist_sq npos pos ≤ radius_sq then [npos] else [])
        ++ (if KDTree.hyper_rect_dist_sq rect pos ≤ radius_sq then
              KDNode.rangeList pos radius_sq rect l
            else [])

theorem KDNode.rangeNoNarrow_eq_append (pos : Pt) (radius_sq : Scalar)
    (rect : HyperRectangle) (n : KDNode) : ∀ results : List Pt,
    KDNode.rangeNoNarrow pos radius_sq rect n results =
      results ++ KDNode.rangeList pos radius_sq rect n := by
  induction n with
  | leaf => intro results; simp [KDNode.rangeNoNarrow, KDNode.rangeList]
  | node npos dir l r ihl ihr =>
    intro results
    by_cases h : pos.at' dir ≤ npos.at' dir <;>
      by_cases hd : Pt.dist_sq npos pos ≤ radius_sq <;>
      by_cases hp : KDTree.hyper_rect_dist_sq rect pos ≤ radius_sq <;>
      simp [KDNode.rangeNoNarrow, KDNode.rangeList, h, hd, hp, ihl, ihr]

/-- Streaming and collecting range queries traverse identically: the callback
is folded, in order, over exactly the collected list. -/
theorem KDNode.closureNoNarrow_foldl {σ : Type} (pos : Pt) (radius_sq : Scalar)
    (process : σ → Pt → σ) (rect : HyperRectangle) (n : KDNode) : ∀ s : σ,
    KDNode.closureNoNarrow pos radius_sq process rect n s =
      (KDNode.rangeList pos radius_sq rect n).foldl process s := by
  induction n with
  | leaf => intro s; simp [KDNode.closureNoNarrow, KDNode.rangeList]
  | node npos dir l r ihl ihr =>
    intro s
    by_cases h : pos.at' dir ≤ npos.at' dir <;>
      by_cases hd : Pt.dist_sq npos pos ≤ radius_sq <;>
      by_cases hp : KDTree.hyper_rect_dist_sq rect pos ≤ radius_sq <;>
      simp [KDNode.closureNoNarrow, KDNode.rangeList, h, hd, hp, ihl, ihr,
        List.foldl_append]

/-- If the whole subtree lies inside the working rectangle, the range query
collects exactly the stored points within the squared radius: pruning the
farther child never loses a qualifying point. -/
theorem KDNode.rangeList_spec (pos : Pt) (radius_sq : Scalar) (rect : HyperRectangle)
    (n : KDNode) (hin : ∀ p ∈ n.points, inRect rect p) :
    (KDNode.rangeList pos radius_sq rect n : Multiset Pt) =
      Multiset.filter (fun p => Pt.dist_sq p pos ≤ radius_sq) n.points := by
  induction n with
  | leaf => simp [KDNode.rangeList]
  | node npos dir l r ihl ihr =>
    have hinl : ∀ p ∈ l.points, inRect rect p := by
      intro p hp; exact hin p (by simp [hp])
    have hinr : ∀ p ∈ r.points, inRect rect p := by
      intro p hp; exact hin p (by simp [hp])
    have hnode : inRect rect npos := hin npos (by simp)
    have hprune : ¬ KDTree.hyper_rect_dist_sq rect pos ≤ radius_sq →
        ∀ sub : KDNode, (∀ p ∈ sub.points, inRect rect p) →
        Multiset.filter (fun p => Pt.dist_sq p pos ≤ radius_sq) sub.points = 0 := by
      intro hp sub hsub
      rw [Multiset.filter_eq_nil]
      intro p hps
      have := KDTree.hyper_rect_dist_sq_le rect pos p (hsub p hps)
      intro hle
      exact hp (le_trans this hle)
    rcases Decidable.em (KDTree.hyper_rect_dist_sq rect pos ≤ radius_sq) with hp | hp
    · by_cases h : pos.at' dir ≤ npos.at' dir <;>
        by_cases hd : Pt.dist_sq npos pos ≤ radius_sq <;>
        simp [KDNode.rangeList, h, hd, hp, ihl hinl, ihr hinr, Multiset.filter_cons,
          Multiset.filter_add, Multiset.filter_singleton, ← Multiset.coe_add,
          ← Multiset.cons_coe, ← Multiset.singleton_add, add_comm, add_left_comm, add_assoc]
    · have hfl := hprune hp l hinl
      have hfr := hprune hp r hinr
      by_cases h : pos.at' dir ≤ npos.at' dir <;>
        by_cases hd : Pt.dist_sq npos pos ≤ radius_sq <;>
        simp [KDNode.rangeList, h, hd, hp, ihl hinl, ihr hinr, Multiset.filter_cons,
          Multiset.filter_add, hfl, hfr, Multiset.filter_singleton, ← Multiset.coe_add,
          ← Multiset.cons_coe, ← Multiset.singleton_add, add_comm, add_left_comm, add_assoc]

/-- The candidate update performed at each node of the nearest search. -/
def NNAcc.update (npos pos : Pt) (acc : NNAcc) : NNAcc :=
  if Pt.dist_sq npos pos < acc.result_dist_sq then
    { result := some npos, result_dist_sq := Pt.dist_sq npos pos }
  else acc

theorem NNAcc.update_le (npos pos : Pt) (acc : NNAcc) :
    (NNAcc.update npos pos acc).result_dist_sq ≤ acc.result_dist_sq := by
  unfold NNAcc.update; split
  · exact le_of_lt (by assumption)
  · exact le_refl _

theorem NNAcc.update_le_dist (npos pos : Pt) (acc : NNAcc) :
    (NNAcc.update npos pos acc).result_dist_sq ≤ Pt.dist_sq npos pos := by
  unfold NNAcc.update; split
  · exact le_refl _
  · exact le_of_not_lt (by assumption)

/-- Restating `nearestNoNarrow` through `NNAcc.update` (pure refolding of the
definition). -/
theorem KDNode.nearestNoNarrow_node (pos : Pt) (rect : HyperRectangle) (npos : Pt)
    (dir : Nat) (l r : KDNode) (acc : NNAcc) :
    KDNode.nearestNoNarrow pos rect (.node npos dir l r) acc =
      (if pos.at' dir ≤ npos.at' dir then
        (if KDTree.hyper_rect_dist_sq rect pos <
              (NNAcc.update npos pos (KDNode.nearestNoNarrow pos rect l acc)).result_dist_sq then
           KDNode.nearestNoNarrow pos rect r
             (NNAcc.update npos pos (KDNode.nearestNoNarrow pos rect l acc))
         else NNAcc.update npos pos (KDNode.nearestNoNarrow pos rect l acc))
      else
        (if KDTree.hyper_rect_dist_sq rect pos <
              (NNAcc.update npos pos (KDNode.nearestNoNarrow pos rect r acc)).result_dist_sq then
           KDNode.nearestNoNarrow pos rect l
             (NNAcc.update npos pos (KDNode.nearestNoNarrow pos rect r acc))
         else NNAcc.update npos pos (KDNode.nearestNoNarrow pos rect r acc))) := by
  simp only [KDNode.nearestNoNarrow, NNAcc.update]

/-- The best squared distance never increases during the search. -/
theorem KDNode.nearestNoNarrow_mono (pos : Pt) (rect : HyperRectangle) (n : KDNode) :
    ∀ acc : NNAcc,
    (KDNode.nearestNoNarrow pos rect n acc).result_dist_sq ≤ acc.result_dist_sq := by
  induction n with
  | leaf => intro acc; exact le_refl _
  | node npos dir l r ihl ihr =>
    intro acc
    rw [KDNode.nearestNoNarrow_node]
    split
    · split
      · exact le_trans (ihr _) (le_trans (NNAcc.update_le npos pos _) (ihl acc))
      · exact le_trans (NNAcc.update_le npos pos _) (ihl acc)
    · split
      · exact le_trans (ihl _) (le_trans (NNAcc.update_le npos pos _) (ihr acc))
      · exact le_trans (NNAcc.update_le npos pos _) (ihr acc)

/-- `acc'` is reachable from `acc` by sound updates drawn from `S`: either
nothing changed, or the accumulator holds a point of `S` together with its
true squared distance. -/
def NNAcc.Sound (acc acc' : NNAcc) (S : Multiset Pt) (pos : Pt) : Prop :=
  acc' = acc ∨ ∃ p, p ∈ S ∧ acc'.result = some p ∧ acc'.result_dist_sq = Pt.dist_sq p pos

theorem NNAcc.sound_refl (acc : NNAcc) (S : Multiset Pt) (pos : Pt) :
    NNAcc.Sound acc acc S pos := Or.inl rfl

theorem NNAcc.sound_trans {a b c : NNAcc} {S : Multiset Pt} {pos : Pt}
    (h1 : NNAcc.Sound a b S pos) (h2 : NNAcc.Sound b c S pos) :
    NNAcc.Sound a c S pos := by
  rcases h2 with h2 | h2
  · rw [h2]; exact h1
  · exact Or.inr h2

theorem NNAcc.sound_mono {a b : NNAcc} {S T : Multiset Pt} {pos : Pt}
    (h : NNAcc.Sound a b S pos) (hsub : ∀ p ∈ S, p ∈ T) :
    NNAcc.Sound a b T pos := by
  rcases h with h | ⟨p, hp, h1, h2⟩
  · exact Or.inl h
  · exact Or.inr ⟨p, hsub p hp, h1, h2⟩

theorem NNAcc.update_sound (npos pos : Pt) (acc : NNAcc) :
    NNAcc.Sound acc (NNAcc.update npos pos acc) {npos} pos := by
  unfold NNAcc.update; split
  · exact Or.inr ⟨npos, Multiset.mem_singleton_self npos, rfl, rfl⟩
  · exact Or.inl rfl

/-- Soundness of the search: the accumulator is only ever replaced by a stored
point paired with its true squared distance. -/
theorem KDNode.nearestNoNarrow_sound (pos : Pt) (rect : HyperRectangle) (n : KDNode) :
    ∀ acc : NNAcc, NNAcc.Sound acc (KDNode.nearestNoNarrow pos rect n acc) n.points pos := by
  induction n with
  | leaf => intro acc; exact NNAcc.sound_refl acc _ pos
  | node npos dir l r ihl ihr =>
    intro acc
    have hmeml : ∀ p ∈ l.points, p ∈ (KDNode.node npos dir l r).points := by
      intro p hp; simp [hp]
    have hmemr : ∀ p ∈ r.points, p ∈ (KDNode.node npos dir l r).points := by
      intro p hp; simp [hp]
    have hmemn : ∀ p ∈ ({npos} : Multiset Pt), p ∈ (KDNode.node npos dir l r).points := by
      intro p hp; rw [Multiset.mem_singleton] at hp; simp [hp]
    rw [KDNode.nearestNoNarrow_node]
    split
    · refine NNAcc.sound_trans (NNAcc.sound_trans
        (NNAcc.sound_mono (ihl acc) hmeml)
        (NNAcc.sound_mono (NNAcc.update_sound npos pos _) hmemn)) ?_
      split
      · exact NNAcc.sound_mono (ihr _) hmemr
      · exact NNAcc.sound_refl _ _ pos
    · refine NNAcc.sound_trans (NNAcc.sound_trans
        (NNAcc.sound_mono (ihr acc) hmemr)
        (NNAcc.sound_mono (NNAcc.update_sound npos pos _) hmemn)) ?_
      split
      · exact NNAcc.sound_mono (ihl _) hmeml
      · exact NNAcc.sound_refl _ _ pos

/-- Completeness of the search: when the whole subtree lies inside the working
rectangle, the final best squared distance is at most the squared distance of
every stored point — pruning the farther child loses nothing. -/
theorem KDNode.nearestNoNarrow_complete (pos : Pt) (rect : HyperRectangle) (n : KDNode)
    (hin : ∀ p ∈ n.points, inRect rect p) : ∀ (acc : NNAcc), ∀ p ∈ n.points,
    (KDNode.nearestNoNarrow pos rect n acc).result_dist_sq ≤ Pt.dist_sq p pos := by
  induction n with
  | leaf => intro acc p hp; simp at hp
  | node npos dir l r ihl ihr =>
    have hinl : ∀ p ∈ l.points, inRect rect p := by
      intro p hp; exact hin p (by simp [hp])
    have hinr : ∀ p ∈ r.points, inRect rect p := by
      intro p hp; exact hin p (by simp [hp])
    intro acc p hp
    rw [KDNode.points_node, Multiset.mem_cons, Multiset.mem_add] at hp
    rw [KDNode.nearestNoNarrow_node]
    split
    · rcases hp with hp | hp | hp
      · subst hp
        split
        · exact le_trans (KDNode.nearestNoNarrow_mono pos rect r _)
            (NNAcc.update_le_dist p pos _)
        · exact NNAcc.update_le_dist p pos _
      · split
        · exact le_trans (KDNode.nearestNoNarrow_mono pos rect r _)
            (le_trans (NNAcc.update_le npos pos _) (ihl hinl acc p hp))
        · exact le_trans (NNAcc.update_le npos pos _) (ihl hinl acc p hp)
      · split
        · exact ihr hinr _ p hp
        · rename_i hprune
          exact le_trans (le_of_not_lt hprune)
            (KDTree.hyper_rect_dist_sq_le rect pos p (hinr p hp))
    · rcases hp with hp | hp | hp
      · subst hp
        split
        · exact le_trans (KDNode.nearestNoNarrow_mono pos rect l _)
            (NNAcc.update_le_dist p pos _)
        · exact NNAcc.update_le_dist p pos _
      · split
        · exact ihl hinl _ p hp
        · rename_i hprune
          exact le_trans (le_of_not_lt hprune)
            (KDTree.hyper_rect_dist_sq_le rect pos p (hinl p hp))
      · split
        · exact le_trans (KDNode.nearestNoNarrow_mono pos rect l _)
            (le_trans (NNAcc.update_le npos pos _) (ihr hinr acc p hp))
        · exact le_trans (NNAcc.update_le npos pos _) (ihr hinr acc p hp)

theorem KDTree.insert_root (t : KDTree) (p : Pt) :
    (t.insert p).root = KDNode.recursive_insert t.root p 0 DIMENSION := by
  unfold KDTree.insert; cases t.rect <;> rfl

theorem KDTree.insert_rect_none {t : KDTree} (p : Pt) (h : t.rect = none) :
    (t.insert p).rect = some { min := p, max := p } := by
  unfold KDTree.insert; rw [h]

theorem KDTree.insert_rect_some {t : KDTree} {R : HyperRectangle} (p : Pt)
    (h : t.rect = some R) :
    (t.insert p).rect = some (KDTree.expandAxis (KDTree.expandAxis R p 0) p 1) := by
  unfold KDTree.insert; rw [h]

theorem KDTree.expandAxis_zero (R : HyperRectangle) (p : Pt) :
    KDTree.expandAxis R p 0 =
      if p.x < R.min.x then { min := Pt.mk p.x R.min.y, max := R.max }
      else if p.x > R.max.x then { min := R.min, max := Pt.mk p.x R.max.y }
      else R := by
  simp only [KDTree.expandAxis, Pt.setAt, Pt.at']
  split_ifs <;> rfl

theorem KDTree.expandAxis_one (R : HyperRectangle) (p : Pt) :
    KDTree.expandAxis R p 1 =
      if p.y < R.min.y then { min := Pt.mk R.min.x p.y, max := R.max }
      else if p.y > R.max.y then { min := R.min, max := Pt.mk R.max.x p.y }
      else R := by
  simp only [KDTree.expandAxis, Pt.setAt, Pt.at']
  split_ifs <;> first | rfl | simp_all

/-- The rectangle-expansion of `insert`, written as per-field min/max updates. -/
theorem KDTree.expand2_char (R : HyperRectangle) (p : Pt) :
    (KDTree.expandAxis (KDTree.expandAxis R p 0) p 1).min.x
        = (if p.x < R.min.x then p.x else R.min.x) ∧
    (KDTree.expandAxis (KDTree.expandAxis R p 0) p 1).max.x
        = (if p.x < R.min.x then R.max.x else if p.x > R.max.x then p.x else R.max.x) ∧
    (KDTree.expandAxis (KDTree.expandAxis R p 0) p 1).min.y
        = (if p.y < R.min.y then p.y else R.min.y) ∧
    (KDTree.expandAxis (KDTree.expandAxis R p 0) p 1).max.y
        = (if p.y < R.min.y then R.max.y else if p.y > R.max.y then p.y else R.max.y) := by
  rw [KDTree.expandAxis_zero]
  by_cases h1 : p.x < R.min.x <;> by_cases h2 : p.x > R.max.x <;>
    simp [h1, h2, KDTree.expandAxis_one] <;>
    by_cases h3 : p.y < R.min.y <;> by_cases h4 : p.y > R.max.y <;>
    simp [h3, h4]

/-- Relation between a tree and the multiset `S` of points inserted so far:
emptiness of root and rect both track `S = 0`, and the rectangle is the tight
bounding box of `S` (all points inside, every bound achieved). -/
def RectBounds (t : KDTree) (S : Multiset Pt) : Prop :=
  (t.root = .leaf ↔ S = 0) ∧ (t.rect = none ↔ S = 0) ∧
  ∀ R, t.rect = some R →
    ((∀ p ∈ S, inRect R p) ∧
     (∃ a ∈ S, a.x = R.min.x) ∧ (∃ a ∈ S, a.x = R.max.x) ∧
     (∃ a ∈ S, a.y = R.min.y) ∧ (∃ a ∈ S, a.y = R.max.y))

theorem RectBounds_empty : RectBounds KDTree.empty 0 := by
  refine ⟨by simp [KDTree.empty], by simp [KDTree.empty], ?_⟩
  intro R hR
  simp [KDTree.empty] at hR

theorem RectBounds_insert {t : KDTree} {S : Multiset Pt} (h : RectBounds t S) (p : Pt) :
    RectBounds (t.insert p) (p ::ₘ S) := by
  obtain ⟨hroot, hrect, hbounds⟩ := h
  refine ⟨?_, ?_, ?_⟩
  · rw [KDTree.insert_root]
    simp [KDNode.recursive_insert_ne_leaf]
  · cases ht : t.rect with
    | none => rw [KDTree.insert_rect_none p ht]; simp
    | some R => rw [KDTree.insert_rect_some p ht]; simp
  · intro R2 hR2
    cases ht : t.rect with
    | none =>
      have hS : S = 0 := hrect.mp ht
      rw [KDTree.insert_rect_none p ht] at hR2
      injection hR2 with hR2
      subst hR2
      subst hS
      refine ⟨?_, ⟨p, by simp⟩, ⟨p, by simp⟩, ⟨p, by simp⟩, ⟨p, by simp⟩⟩
      intro q hq
      rw [Multiset.mem_cons] at hq
      rcases hq with hq | hq
      · subst hq; exact ⟨le_refl _, le_refl _, le_refl _, le_refl _⟩
      · simp at hq
    | some R =>
      obtain ⟨hin, ⟨a1, ha1S, ha1⟩, ⟨a2, ha2S, ha2⟩, ⟨a3, ha3S, ha3⟩, ⟨a4, ha4S, ha4⟩⟩ :=
        hbounds R ht
      have hmm1 : R.min.x ≤ R.max.x := ha1 ▸ (hin a1 ha1S).2.1
      have hmm2 : R.min.y ≤ R.max.y := ha3 ▸ (hin a3 ha3S).2.2.2
      rw [KDTree.insert_rect_some p ht] at hR2
      injection hR2 with hR2
      subst hR2
      obtain ⟨e1, e2, e3, e4⟩ := KDTree.expand2_char R p
      constructor
      · intro q hq
        rw [Multiset.mem_cons] at hq
        have hminx : (KDTree.expandAxis (KDTree.expandAxis R p 0) p 1).min.x ≤ R.min.x := by
          rw [e1]; split_ifs with hc
          · exact le_of_lt hc
          · exact le_refl _
        have hmaxx : R.max.x ≤ (KDTree.expandAxis (KDTree.expandAxis R p 0) p 1).max.x := by
          rw [e2]; split_ifs <;> first | exact le_refl _ | linarith
        have hminy : (KDTree.expandAxis (KDTree.expandAxis R p 0) p 1).min.y ≤ R.min.y := by
          rw [e3]; split_ifs with hc
          · exact le_of_lt hc
          · exact le_refl _
        have hmaxy : R.max.y ≤ (KDTree.expandAxis (KDTree.expandAxis R p 0) p 1).max.y := by
          rw [e4]; split_ifs <;> first | exact le_refl _ | linarith
        rcases hq with hq | hq
        · subst hq
          refine ⟨?_, ?_, ?_, ?_⟩
          · rw [e1]; split_ifs with hc <;> linarith
          · rw [e2]; split_ifs with hc hc2 <;> linarith
          · rw [e3]; split_ifs with hc <;> linarith
          · rw [e4]; split_ifs with hc hc2 <;> linarith
        · obtain ⟨g1, g2, g3, g4⟩ := hin q hq
          exact ⟨le_trans hminx g1, le_trans g2 hmaxx, le_trans hminy g3, le_trans g4 hmaxy⟩
      refine ⟨?_, ?_, ?_, ?_⟩
      · rw [e1]; split_ifs with hc
        · exact ⟨p, by simp⟩
        · exact ⟨a1, by simp [ha1S], ha1⟩
      · rw [e2]; split_ifs with hc hc2
        · exact ⟨a2, by simp [ha2S], ha2⟩
        · exact ⟨p, by simp⟩
        · exact ⟨a2, by simp [ha2S], ha2⟩
      · rw [e3]; split_ifs with hc
        · exact ⟨p, by simp⟩
        · exact ⟨a3, by simp [ha3S], ha3⟩
      · rw [e4]; split_ifs with hc hc2
        · exact ⟨a4, by simp [ha4S], ha4⟩
        · exact ⟨p, by simp⟩
        · exact ⟨a4, by simp [ha4S], ha4⟩

theorem foldl_RectBounds (ps : List Pt) : ∀ (t : KDTree) (S : Multiset Pt),
    RectBounds t S → RectBounds (ps.foldl KDTree.insert t) (S + (ps : Multiset Pt)) := by
  induction ps with
  | nil => intro t S h; simpa using h
  | cons p ps ih =>
    intro t S h
    have h2 := ih (t.insert p) (p ::ₘ S) (RectBounds_insert h p)
    simp only [List.foldl_cons]
    have : S + ((p :: ps : List Pt) : Multiset Pt) = (p ::ₘ S) + (ps : Multiset Pt) := by
      simp [← Multiset.cons_coe, Multiset.add_cons, Multiset.cons_add]
    rw [this]
    exact h2

/-- The tight-bounding-box invariant holds for every built tree. -/
theorem buildTree_RectBounds (ps : List Pt) : RectBounds (buildTree ps) (ps : Multiset Pt) := by
  have := foldl_RectBounds ps KDTree.empty 0 RectBounds_empty
  simpa [buildTree] using this

/-- Every node at depth `d` (the root of the subtree being at depth `d`)
splits on axis `d % DIMENSION`. -/
def KDNode.dirInvariant : KDNode → Nat → Prop
  | .leaf, _ => True
  | .node _ dir l r, d => dir = d % DIMENSION ∧ l.dirInvariant (d + 1) ∧ r.dirInvariant (d + 1)

/-- kd-tree ordering: left-subtree points are strictly below the node on its
splitting axis, right-subtree points are greater or equal (ties right). -/
def KDNode.orderInvariant : KDNode → Prop
  | .leaf => True
  | .node pos dir l r =>
    (∀ p ∈ l.points, p.at' dir < pos.at' dir) ∧
    (∀ p ∈ r.points, pos.at' dir ≤ p.at' dir) ∧
    l.orderInvariant ∧ r.orderInvariant

theorem KDNode.recursive_insert_dirInvariant (p : Pt) : ∀ (n : KDNode) (d : Nat),
    n.dirInvariant d →
    (KDNode.recursive_insert n p (d % DIMENSION) DIMENSION).dirInvariant d := by
  intro n
  induction n with
  | leaf =>
    intro d _
    exact ⟨rfl, trivial, trivial⟩
  | node cpos cdir l r ihl ihr =>
    intro d hd
    obtain ⟨hdir, hl, hr⟩ := hd
    have hnew : (cdir + 1) % DIMENSION = (d + 1) % DIMENSION := by
      subst hdir
      show (d % 2 + 1) % 2 = (d + 1) % 2
      omega
    simp only [KDNode.recursive_insert]
    split
    · exact ⟨hdir, by rw [hnew]; exact ihl (d + 1) hl, hr⟩
    · exact ⟨hdir, hl, by rw [hnew]; exact ihr (d + 1) hr⟩

theorem KDNode.recursive_insert_orderInvariant (p : Pt) : ∀ (n : KDNode) (d m : Nat),
    n.orderInvariant → (KDNode.recursive_insert n p d m).orderInvariant := by
  intro n
  induction n with
  | leaf =>
    intro d m _
    exact ⟨by simp, by simp, trivial, trivial⟩
  | node cpos cdir l r ihl ihr =>
    intro d m ho
    obtain ⟨holt, hole, hol, hor⟩ := ho
    simp only [KDNode.recursive_insert]
    split
    · rename_i hlt
      refine ⟨?_, hole, ihl _ _ hol, hor⟩
      intro q hq
      rw [KDNode.points_recursive_insert, Multiset.mem_cons] at hq
      rcases hq with hq | hq
      · subst hq; exact hlt
      · exact holt q hq
    · rename_i hge
      refine ⟨holt, ?_, hol, ihr _ _ hor⟩
      intro q hq
      rw [KDNode.points_recursive_insert, Multiset.mem_cons] at hq
      rcases hq with hq | hq
      · subst hq; exact le_of_not_lt hge
      · exact hole q hq

/-- The two structural invariants of the tree, rooted at depth 0. -/
def KDTree.Invariant (t : KDTree) : Prop :=
  t.root.dirInvariant 0 ∧ t.root.orderInvariant

theorem KDTree.insert_Invariant {t : KDTree} (h : t.Invariant) (p : Pt) :
    (t.insert p).Invariant := by
  obtain ⟨h1, h2⟩ := h
  constructor
  · rw [KDTree.insert_root]
    exact KDNode.recursive_insert_dirInvariant p t.root 0 h1
  · rw [KDTree.insert_root]
    exact KDNode.recursive_insert_orderInvariant p t.root 0 DIMENSION h2

theorem buildTree_Invariant (ps : List Pt) : (buildTree ps).Invariant := by
  have step : ∀ (qs : List Pt) (t : KDTree), t.Invariant → (qs.foldl KDTree.insert t).Invariant := by
    intro qs
    induction qs with
    | nil => intro t h; exact h
    | cons q qs ih =>
      intro t h
      exact ih (t.insert q) (KDTree.insert_Invariant h q)
  exact step ps KDTree.empty ⟨trivial, trivial⟩

/-- Instrumented copy of `recursive_nearest` that additionally records, in
call order, the position of every node the search is invoked on.  The
accumulator and rectangle behave exactly as in `recursive_nearest`. -/
def KDNode.nearestVisits (pos : Pt) :
    KDNode → NNAcc → HyperRectangle → NNAcc × HyperRectangle × List Pt
  | .leaf, acc, rect => (acc, rect, [])
  | .node npos dir l r, acc, rect =>
    if pos.at' dir ≤ npos.at' dir then
      let old_value := rect.max.at' dir
      let s1 := KDNode.nearestVisits pos l acc rect
      let rect2 : HyperRectangle := { s1.2.1 with max := s1.2.1.max.setAt dir old_value }
      let acc2 : NNAcc :=
        if Pt.dist_sq npos pos < s1.1.result_dist_sq then
          { result := some npos, result_dist_sq := Pt.dist_sq npos pos }
        else s1.1
      if KDTree.hyper_rect_dist_sq rect2 pos < acc2.result_dist_sq then
        let s2 := KDNode.nearestVisits pos r acc2 rect2
        (s2.1, s2.2.1, npos :: (s1.2.2 ++ s2.2.2))
      else (acc2, rect2, npos :: s1.2.2)
    else
      let old_value := rect.min.at' dir
      let s1 := KDNode.nearestVisits pos r acc rect
      let rect2 : HyperRectangle := { s1.2.1 with min := s1.2.1.min.setAt dir old_value }
      let acc2 : NNAcc :=
        if Pt.dist_sq npos pos < s1.1.result_dist_sq then
          { result := some npos, result_dist_sq := Pt.dist_sq npos pos }
        else s1.1
      if KDTree.hyper_rect_dist_sq rect2 pos < acc2.result_dist_sq then
        let s2 := KDNode.nearestVisits pos l acc2 rect2
        (s2.1, s2.2.1, npos :: (s1.2.2 ++ s2.2.2))
      else (acc2, rect2, npos :: s1.2.2)

/-- Modelled from the spec: the save/narrow/restore discipline the
specification describes for `recursive_nearest` — the shared rectangle's
bound on the node's axis is set to the node's coordinate for the descent into
the nearer child and restored afterwards, and the farther subtree is entered
only when `hyper_rect_dist_sq` of the rectangle narrowed toward the farther
side is strictly below the running best — instrumented with the same visit
trace as `nearestVisits`. -/
def KDNode.nearestVisitsNarrowing (pos : Pt) :
    KDNode → NNAcc → HyperRectangle → NNAcc × List Pt
  | .leaf, acc, _ => (acc, [])
  | .node npos dir l r, acc, rect =>
    if pos.at' dir ≤ npos.at' dir then
      let rectNear : HyperRectangle := { rect with max := rect.max.setAt dir (npos.at' dir) }
      let s1 := KDNode.nearestVisitsNarrowing pos l acc rectNear
      let acc2 : NNAcc :=
        if Pt.dist_sq npos pos < s1.1.result_dist_sq then
          { result := some npos, result_dist_sq := Pt.dist_sq npos pos }
        else s1.1
      let rectFar : HyperRectangle := { rect with min := rect.min.setAt dir (npos.at' dir) }
      if KDTree.hyper_rect_dist_sq rectFar pos < acc2.result_dist_sq then
        let s2 := KDNode.nearestVisitsNarrowing pos r acc2 rectFar
        (s2.1, npos :: (s1.2 ++ s2.2))
      else (acc2, npos :: s1.2)
    else
      let rectNear : HyperRectangle := { rect with min := rect.min.setAt dir (npos.at' dir) }
      let s1 := KDNode.nearestVisitsNarrowing pos r acc rectNear
      let acc2 : NNAcc :=
        if Pt.dist_sq npos pos < s1.1.result_dist_sq then
          { result := some npos, result_dist_sq := Pt.dist_sq npos pos }
        else s1.1
      let rectFar : HyperRectangle := { rect with max := rect.max.setAt dir (npos.at' dir) }
      if KDTree.hyper_rect_dist_sq rectFar pos < acc2.result_dist_sq then
        let s2 := KDNode.nearestVisitsNarrowing pos l acc2 rectFar
        (s2.1, npos :: (s1.2 ++ s2.2))
      else (acc2, npos :: s1.2)

/-- Visit trace of `KDTree::nearest` as the code behaves. -/
def nearestVisitsOfTree (t : KDTree) (pos : Pt) : List Pt :=
  match t.root, t.rect with
  | .leaf, _ => []
  | .node npos dir l r, some rect0 =>
    (KDNode.nearestVisits pos (.node npos dir l r)
      { result := some npos, result_dist_sq := Pt.dist_sq npos pos } rect0).2.2
  | .node _ _ _ _, none => []

/-- Visit trace of `KDTree::nearest` as the specification describes it. -/
def nearestVisitsNarrowingOfTree (t : KDTree) (pos : Pt) : List Pt :=
  match t.root, t.rect with
  | .leaf, _ => []
  | .node npos dir l r, some rect0 =>
    (KDNode.nearestVisitsNarrowing pos (.node npos dir l r)
      { result := some npos, result_dist_sq := Pt.dist_sq npos pos } rect0).2
  | .node _ _ _ _, none => []

example :
    nearestVisitsOfTree (buildTree [⟨0,0⟩, ⟨-5,3⟩, ⟨5,0⟩]) ⟨-6,0⟩
      = [⟨0,0⟩, ⟨-5,3⟩, ⟨5,0⟩] := by decide

example :
    nearestVisitsNarrowingOfTree (buildTree [⟨0,0⟩, ⟨-5,3⟩, ⟨5,0⟩]) ⟨-6,0⟩
      = [⟨0,0⟩, ⟨-5,3⟩] := by decide

/-- Master lemma: on a built tree, `range_query` returns (as a multiset)
exactly the inserted points within squared distance `radius * radius` —
with no sign assumption on the radius. -/
theorem range_query_filter (ps : List Pt) (q : Pt) (r : Scalar) :
    (((buildTree ps).range_query q r : List Pt) : Multiset Pt) =
      Multiset.filter (fun p => Pt.dist_sq q p ≤ r * r) (ps : Multiset Pt) := by
  have RB := buildTree_RectBounds ps
  cases hroot : (buildTree ps).root with
  | leaf =>
    have hS : (ps : Multiset Pt) = 0 := RB.1.mp hroot
    simp only [KDTree.range_query, hroot, hS]
    simp
  | node npos ndir nl nr =>
    have hS : (ps : Multiset Pt) ≠ 0 := by
      intro h0
      rw [RB.1.mpr h0] at hroot
      exact KDNode.noConfusion hroot
    cases hrect : (buildTree ps).rect with
    | none => exact absurd (RB.2.1.mp hrect) hS
    | some R =>
      obtain ⟨hin, -, -, -, -⟩ := RB.2.2 R hrect
      have hinP : ∀ p ∈ (KDNode.node npos ndir nl nr).points, inRect R p := by
        rw [← hroot, buildTree_points]
        exact hin
      simp only [KDTree.range_query, hroot, hrect]
      rw [recursive_range_query_eq_noNarrow]
      simp only
      rw [KDNode.rangeNoNarrow_eq_append, List.nil_append,
        KDNode.rangeList_spec q (r * r) R _ hinP, ← buildTree_points ps, hroot]
      exact Multiset.filter_congr fun p hp => by rw [Pt.dist_sq_comm]

/-- Master lemma: the streaming query folds its callback over exactly the
list the collecting query returns, for any tree. -/
theorem closure_range_query_foldl {σ : Type} (t : KDTree) (q : Pt) (r : Scalar)
    (process : σ → Pt → σ) (s : σ) :
    t.closure_range_query q r process s = (t.range_query q r).foldl process s := by
  cases hroot : t.root with
  | leaf => simp only [KDTree.closure_range_query, KDTree.range_query, hroot, List.foldl_nil]
  | node npos ndir nl nr =>
    cases hrect : t.rect with
    | none => simp only [KDTree.closure_range_query, KDTree.range_query, hroot, hrect,
        List.foldl_nil]
    | some R =>
      simp only [KDTree.closure_range_query, KDTree.range_query, hroot, hrect]
      rw [recursive_closure_range_query_eq_noNarrow, recursive_range_query_eq_noNarrow]
      simp only
      rw [KDNode.closureNoNarrow_foldl, KDNode.rangeNoNarrow_eq_append, List.nil_append]

theorem HyperRectangle.ext2 (A B : HyperRectangle) (h1 : A.min.x = B.min.x)
    (h2 : A.min.y = B.min.y) (h3 : A.max.x = B.max.x) (h4 : A.max.y = B.max.y) :
    A = B := by
  obtain ⟨⟨a1, a2⟩, ⟨a3, a4⟩⟩ := A
  obtain ⟨⟨b1, b2⟩, ⟨b3, b4⟩⟩ := B
  simp_all

/-- Master lemma for the nearest-neighbour query on a nonempty built tree:
the result is an inserted point at minimal squared distance. -/
theorem nearest_min (ps : List Pt) (q : Pt) (h : ps ≠ []) :
    ∃ p, (buildTree ps).nearest q = some p ∧ p ∈ ps ∧
      ∀ p2 ∈ ps, Pt.dist_sq q p ≤ Pt.dist_sq q p2 := by
  have RB := buildTree_RectBounds ps
  have hS : (ps : Multiset Pt) ≠ 0 := by simpa using h
  cases hroot : (buildTree ps).root with
  | leaf => exact absurd (RB.1.mp hroot) hS
  | node npos ndir nl nr =>
    cases hrect : (buildTree ps).rect with
    | none => exact absurd (RB.2.1.mp hrect) hS
    | some R =>
      obtain ⟨hin, -, -, -, -⟩ := RB.2.2 R hrect
      have hpoints : (KDNode.node npos ndir nl nr).points = (ps : Multiset Pt) := by
        rw [← hroot, buildTree_points]
      have hinP : ∀ p ∈ (KDNode.node npos ndir nl nr).points, inRect R p := by
        rw [hpoints]; exact hin
      have hne : (buildTree ps).nearest q =
          (KDNode.nearestNoNarrow q R (KDNode.node npos ndir nl nr)
            { result := some npos, result_dist_sq := Pt.dist_sq npos q }).result := by
        simp only [KDTree.nearest, hroot, hrect]
        rw [recursive_nearest_eq_noNarrow]
      have hsound := KDNode.nearestNoNarrow_sound q R (KDNode.node npos ndir nl nr)
        { result := some npos, result_dist_sq := Pt.dist_sq npos q }
      have hcomp := KDNode.nearestNoNarrow_complete q R (KDNode.node npos ndir nl nr) hinP
        { result := some npos, result_dist_sq := Pt.dist_sq npos q }
      have hex : ∃ p, p ∈ (KDNode.node npos ndir nl nr).points ∧
          (KDNode.nearestNoNarrow q R (KDNode.node npos ndir nl nr)
            { result := some npos, result_dist_sq := Pt.dist_sq npos q }).result = some p ∧
          (KDNode.nearestNoNarrow q R (KDNode.node npos ndir nl nr)
            { result := some npos, result_dist_sq := Pt.dist_sq npos q }).result_dist_sq
            = Pt.dist_sq p q := by
        rcases hsound with heq | ⟨p, hpm, h1, h2⟩
        · exact ⟨npos, by simp, by rw [heq], by rw [heq]⟩
        · exact ⟨p, hpm, h1, h2⟩
      obtain ⟨p, hpmem, hres, hdist⟩ := hex
      refine ⟨p, by rw [hne, hres], ?_, ?_⟩
      · rw [hpoints] at hpmem
        exact Multiset.mem_coe.mp hpmem
      · intro p2 hp2
        have hp2m : p2 ∈ (KDNode.node npos ndir nl nr).points := by
          rw [hpoints]; exact Multiset.mem_coe.mpr hp2
        have hle := hcomp p2 hp2m
        rw [hdist] at hle
        calc Pt.dist_sq q p = Pt.dist_sq p q := Pt.dist_sq_comm q p
          _ ≤ Pt.dist_sq p2 q := hle
          _ = Pt.dist_sq q p2 := Pt.dist_sq_comm p2 q

theorem recursive_insertE_ok (p : Pt) : ∀ (n : KDNode) (d m : Nat),
    KDNode.recursive_insertE n p d m = Except.ok (KDNode.recursive_insert n p d m) := by
  intro n
  induction n with
  | leaf => intro d m; rfl
  | node cpos cdir l r ihl ihr =>
    intro d m
    by_cases h : p.at' cdir < cpos.at' cdir <;>
      simp [KDNode.recursive_insertE, KDNode.recursive_insert, h, ihl, ihr]

/-- C1: for a tree built by inserting the points `ps`, `nearest q` is `none`
exactly when `ps` is empty, and otherwise returns some inserted point whose
squared distance to `q` is minimal over all inserted points. -/
theorem C1_nearest_correct (ps : List Pt) (q : Pt) :
    ((buildTree ps).nearest q = none ↔ ps = []) ∧
    (ps ≠ [] → ∃ p, (buildTree ps).nearest q = some p ∧ p ∈ ps ∧
      ∀ p2 ∈ ps, Pt.dist_sq q p ≤ Pt.dist_sq q p2) := by
  refine ⟨⟨?_, ?_⟩, nearest_min ps q⟩
  · intro hn
    by_contra hne
    obtain ⟨p, hp, -, -⟩ := nearest_min ps q hne
    rw [hn] at hp
    exact Option.noConfusion hp
  · intro h; subst h; rfl

/-- C1 witness: on the one-point tree `[(1,2)]` queried at the origin the
theorem produces that point as the nearest neighbour. -/
theorem C1_nearest_correct_witness :
    ∃ p, (buildTree [⟨1,2⟩]).nearest ⟨0,0⟩ = some p ∧ p ∈ [(⟨1,2⟩ : Pt)] ∧
      ∀ p2 ∈ [(⟨1,2⟩ : Pt)], Pt.dist_sq ⟨0,0⟩ p ≤ Pt.dist_sq ⟨0,0⟩ p2 :=
  (C1_nearest_correct [⟨1,2⟩] ⟨0,0⟩).2 (by decide)

/-- C2: for a built tree and any radius `r ≥ 0`, the multiset of points
returned by `range_query q r` equals the multiset of inserted points within
squared distance `r * r` of `q` — no false positives, no false negatives. -/
theorem C2_range_query_exact (ps : List Pt) (q : Pt) (r : Scalar) (_hr : 0 ≤ r) :
    (((buildTree ps).range_query q r : List Pt) : Multiset Pt) =
      Multiset.filter (fun p => Pt.dist_sq q p ≤ r * r) (ps : Multiset Pt) :=
  range_query_filter ps q r

/-- C2 witness: two inserted points, radius 2 around the origin keeps exactly
the point at distance 1 and drops the point at distance 5. -/
theorem C2_range_query_exact_witness :
    (((buildTree [⟨1,0⟩, ⟨3,4⟩]).range_query ⟨0,0⟩ 2 : List Pt) : Multiset Pt) =
      Multiset.filter (fun p => Pt.dist_sq ⟨0,0⟩ p ≤ 2 * 2)
        (([⟨1,0⟩, ⟨3,4⟩] : List Pt) : Multiset Pt) :=
  C2_range_query_exact [⟨1,0⟩, ⟨3,4⟩] ⟨0,0⟩ 2 (by norm_num)

/-- C3 counterexample: with the single point `(0,0)` and radius `-1`, the
range query returns that point (not the empty sequence) and the streaming
query invokes its callback once (not zero times): the radius only enters as
`radius * radius`, so a negative radius acts like its absolute value. -/
theorem C3_counterexample :
    ((buildTree [⟨0,0⟩]).range_query ⟨0,0⟩ (-1) = [⟨0,0⟩]) ∧
    ((buildTree [⟨0,0⟩]).range_query ⟨0,0⟩ (-1) ≠ []) ∧
    ((buildTree [⟨0,0⟩]).closure_range_query ⟨0,0⟩ (-1) (fun n _ => n + 1) (0 : Nat) = 1) := by
  refine ⟨by decide, by decide, by decide⟩

/-- C3 amended: for `r < 0`, `range_query q r` returns exactly the inserted
points within squared distance `r * r` (hence possibly a nonempty sequence),
and `closure_range_query` invokes its callback once per such point in the
same order. -/
theorem C3_amended_negative_radius (ps : List Pt) (q : Pt) (r : Scalar) (_h : r < 0) :
    ((((buildTree ps).range_query q r : List Pt) : Multiset Pt) =
      Multiset.filter (fun p => Pt.dist_sq q p ≤ r * r) (ps : Multiset Pt)) ∧
    ∀ (σ : Type) (process : σ → Pt → σ) (s : σ),
      (buildTree ps).closure_range_query q r process s =
        ((buildTree ps).range_query q r).foldl process s :=
  ⟨range_query_filter ps q r,
   fun _ process s => closure_range_query_foldl (buildTree ps) q r process s⟩

/-- C3 amended witness: instantiated at the counterexample input. -/
theorem C3_amended_negative_radius_witness :
    ((((buildTree [⟨0,0⟩]).range_query ⟨0,0⟩ (-1) : List Pt) : Multiset Pt) =
      Multiset.filter (fun p => Pt.dist_sq ⟨0,0⟩ p ≤ (-1) * (-1))
        (([⟨0,0⟩] : List Pt) : Multiset Pt)) ∧
    ∀ (σ : Type) (process : σ → Pt → σ) (s : σ),
      (buildTree [⟨0,0⟩]).closure_range_query ⟨0,0⟩ (-1) process s =
        ((buildTree [⟨0,0⟩]).range_query ⟨0,0⟩ (-1)).foldl process s :=
  C3_amended_negative_radius [⟨0,0⟩] ⟨0,0⟩ (-1) (by norm_num)

/-- C4 counterexample: on the tree built from `[(0,0),(-5,3),(5,0)]` queried
at `(-6,0)`, the node-visit trace of the implemented search differs from the
trace of the save/narrow/restore search the claim describes: the `mem::replace`
acts on a temporary, the rectangle is never narrowed, and the implementation
therefore descends into the farther subtree `(5,0)` that the claimed narrowed
bound `box_dist_sq = 36 ≥ best = 10` would prune. -/
theorem C4_counterexample :
    nearestVisitsOfTree (buildTree [⟨0,0⟩, ⟨-5,3⟩, ⟨5,0⟩]) ⟨-6,0⟩ ≠
      nearestVisitsNarrowingOfTree (buildTree [⟨0,0⟩, ⟨-5,3⟩, ⟨5,0⟩]) ⟨-6,0⟩ := by
  decide

/-- C4 amended: the attempted tightening of the shared rectangle has no
effect — `recursive_nearest` returns its rectangle exactly as given and
computes the same answer as the search that keeps the rectangle constant and
enters the farther subtree exactly when `hyper_rect_dist_sq` of that
un-narrowed rectangle is strictly below the current best squared distance. -/
theorem C4_amended_rect_never_narrowed (pos : Pt) (n : KDNode) (acc : NNAcc)
    (rect : HyperRectangle) :
    KDNode.recursive_nearest pos n acc rect = (KDNode.nearestNoNarrow pos rect n acc, rect) :=
  recursive_nearest_eq_noNarrow pos n acc rect

/-- C5: every tree built by insertions satisfies the structural invariant
(`dir = depth % DIMENSION`; left-subtree points strictly below the node on its
axis, right-subtree points greater or equal), and a single insertion preserves
the invariant. -/
theorem C5_structure_invariant (ps : List Pt) (t : KDTree) (p : Pt) (h : t.Invariant) :
    (buildTree ps).Invariant ∧ (t.insert p).Invariant :=
  ⟨buildTree_Invariant ps, KDTree.insert_Invariant h p⟩

/-- C5 witness: a concrete three-point tree and an insertion into the empty
tree. -/
theorem C5_structure_invariant_witness :
    (buildTree [⟨0,0⟩, ⟨-1,2⟩, ⟨3,1⟩]).Invariant ∧ (KDTree.empty.insert ⟨2,2⟩).Invariant :=
  C5_structure_invariant [⟨0,0⟩, ⟨-1,2⟩, ⟨3,1⟩] KDTree.empty ⟨2,2⟩ ⟨trivial, trivial⟩

/-- C6: `rect` is `none` iff `root` is `None`; when present it is the tight
component-wise bounding box of the inserted points (all points inside, every
bound achieved); and inserting any permutation of the same points yields the
identical rectangle. -/
theorem C6_rect_tight_bbox (ps ps2 : List Pt) (hperm : ps.Perm ps2) :
    ((buildTree ps).rect = none ↔ (buildTree ps).root = .leaf) ∧
    (∀ R, (buildTree ps).rect = some R →
      ((∀ p ∈ ps, inRect R p) ∧
       (∃ a ∈ ps, a.x = R.min.x) ∧ (∃ a ∈ ps, a.x = R.max.x) ∧
       (∃ a ∈ ps, a.y = R.min.y) ∧ (∃ a ∈ ps, a.y = R.max.y))) ∧
    (buildTree ps).rect = (buildTree ps2).rect := by
  have RB := buildTree_RectBounds ps
  have RB2 := buildTree_RectBounds ps2
  refine ⟨Iff.trans RB.2.1 RB.1.symm, ?_, ?_⟩
  · intro R hR
    obtain ⟨hin, h1, h2, h3, h4⟩ := RB.2.2 R hR
    exact ⟨fun p hp => hin p (Multiset.mem_coe.mpr hp),
      by simpa using h1, by simpa using h2, by simpa using h3, by simpa using h4⟩
  · cases hps : (buildTree ps).rect with
    | none =>
      have hS : (ps : Multiset Pt) = 0 := RB.2.1.mp hps
      have hnil : ps = [] := by simpa using hS
      have hnil2 : ps2 = [] := by
        rw [hnil] at hperm
        exact hperm.symm.eq_nil
      rw [RB2.2.1.mpr (by simp [hnil2])]
    | some R =>
      have hS : (ps : Multiset Pt) ≠ 0 := fun h0 => by
        rw [RB.2.1.mpr h0] at hps; exact Option.noConfusion hps
      cases hps2 : (buildTree ps2).rect with
      | none =>
        exfalso
        apply hS
        have h0 := RB2.2.1.mp hps2
        have hnil2 : ps2 = [] := by simpa using h0
        rw [hnil2] at hperm
        rw [hperm.eq_nil]
        simp
      | some R2 =>
        obtain ⟨hin, ⟨a1, ha1, hax1⟩, ⟨a2, ha2, hax2⟩, ⟨a3, ha3, hax3⟩, ⟨a4, ha4, hax4⟩⟩ :=
          RB.2.2 R hps
        obtain ⟨hin2, ⟨b1, hb1, hbx1⟩, ⟨b2, hb2, hbx2⟩, ⟨b3, hb3, hbx3⟩, ⟨b4, hb4, hbx4⟩⟩ :=
          RB2.2.2 R2 hps2
        have hmem : ∀ x : Pt, x ∈ (ps : Multiset Pt) ↔ x ∈ (ps2 : Multiset Pt) := by
          intro x; simp [hperm.mem_iff]
        have e1 : R.min.x = R2.min.x := by
          have u1 : R.min.x ≤ b1.x := (hin b1 ((hmem b1).mpr hb1)).1
          have u2 : R2.min.x ≤ a1.x := (hin2 a1 ((hmem a1).mp ha1)).1
          rw [hbx1] at u1; rw [hax1] at u2
          exact le_antisymm u1 u2
        have e2 : R.max.x = R2.max.x := by
          have u1 : b2.x ≤ R.max.x := (hin b2 ((hmem b2).mpr hb2)).2.1
          have u2 : a2.x ≤ R2.max.x := (hin2 a2 ((hmem a2).mp ha2)).2.1
          rw [hbx2] at u1; rw [hax2] at u2
          exact le_antisymm u2 u1
        have e3 : R.min.y = R2.min.y := by
          have u1 : R.min.y ≤ b3.y := (hin b3 ((hmem b3).mpr hb3)).2.2.1
          have u2 : R2.min.y ≤ a3.y := (hin2 a3 ((hmem a3).mp ha3)).2.2.1
          rw [hbx3] at u1; rw [hax3] at u2
          exact le_antisymm u1 u2
        have e4 : R.max.y = R2.max.y := by
          have u1 : b4.y ≤ R.max.y := (hin b4 ((hmem b4).mpr hb4)).2.2.2
          have u2 : a4.y ≤ R2.max.y := (hin2 a4 ((hmem a4).mp ha4)).2.2.2
          rw [hbx4] at u1; rw [hax4] at u2
          exact le_antisymm u2 u1
        exact congrArg some (HyperRectangle.ext2 R R2 e1 e3 e2 e4)

/-- C6 witness: two orders of the same two points give the same (tight)
rectangle. -/
theorem C6_rect_tight_bbox_witness :
    (((buildTree [⟨0,0⟩, ⟨1,2⟩]).rect = none ↔ (buildTree [⟨0,0⟩, ⟨1,2⟩]).root = .leaf) ∧
    (∀ R, (buildTree [⟨0,0⟩, ⟨1,2⟩]).rect = some R →
      ((∀ p ∈ [(⟨0,0⟩ : Pt), ⟨1,2⟩], inRect R p) ∧
       (∃ a ∈ [(⟨0,0⟩ : Pt), ⟨1,2⟩], a.x = R.min.x) ∧
       (∃ a ∈ [(⟨0,0⟩ : Pt), ⟨1,2⟩], a.x = R.max.x) ∧
       (∃ a ∈ [(⟨0,0⟩ : Pt), ⟨1,2⟩], a.y = R.min.y) ∧
       (∃ a ∈ [(⟨0,0⟩ : Pt), ⟨1,2⟩], a.y = R.max.y))) ∧
    (buildTree [⟨0,0⟩, ⟨1,2⟩]).rect = (buildTree [⟨1,2⟩, ⟨0,0⟩]).rect) :=
  C6_rect_tight_bbox [⟨0,0⟩, ⟨1,2⟩] [⟨1,2⟩, ⟨0,0⟩] (by decide)

/-- C7: the streaming range query folds its callback, in traversal order,
over exactly the list the collecting query returns — one invocation per
returned point — and on the empty tree the callback is never invoked. -/
theorem C7_closure_matches_range (σ : Type) (t : KDTree) (q : Pt) (r : Scalar)
    (process : σ → Pt → σ) (s : σ) :
    t.closure_range_query q r process s = (t.range_query q r).foldl process s ∧
    KDTree.empty.closure_range_query q r process s = s :=
  ⟨closure_range_query_foldl t q r process s, rfl⟩

/-- C8: for a rectangle with `min ≤ max` on both axes, `hyper_rect_dist_sq`
vanishes exactly on the rectangle, and it lower-bounds the squared distance
from the query to every point inside the rectangle. -/
theorem C8_hyper_rect_dist_sq_bound (R : HyperRectangle) (q p : Pt)
    (_hR : R.min.x ≤ R.max.x ∧ R.min.y ≤ R.max.y) :
    (KDTree.hyper_rect_dist_sq R q = 0 ↔ inRect R q) ∧
    (inRect R p → KDTree.hyper_rect_dist_sq R q ≤ Pt.dist_sq q p) := by
  refine ⟨KDTree.hyper_rect_dist_sq_eq_zero_iff R q, ?_⟩
  intro hp
  rw [Pt.dist_sq_comm]
  exact KDTree.hyper_rect_dist_sq_le R q p hp

/-- C8 witness: the unit square, an outside query `(2,0)` and the inside
point `(1,0)`. -/
theorem C8_hyper_rect_dist_sq_bound_witness :
    (KDTree.hyper_rect_dist_sq ⟨⟨0,0⟩, ⟨1,1⟩⟩ ⟨2,0⟩ = 0 ↔ inRect ⟨⟨0,0⟩, ⟨1,1⟩⟩ ⟨2,0⟩) ∧
    (inRect ⟨⟨0,0⟩, ⟨1,1⟩⟩ ⟨1,0⟩ →
      KDTree.hyper_rect_dist_sq ⟨⟨0,0⟩, ⟨1,1⟩⟩ ⟨2,0⟩ ≤ Pt.dist_sq ⟨2,0⟩ ⟨1,0⟩) :=
  C8_hyper_rect_dist_sq_bound ⟨⟨0,0⟩, ⟨1,1⟩⟩ ⟨2,0⟩ ⟨1,0⟩ (by norm_num)

/-- C9: insertion is infallible — `insertE` always returns `ok` (of the tree
the infallible `insert` produces), for every tree state and point. -/
theorem C9_insert_infallible (t : KDTree) (p : Pt) :
    t.insertE p = Except.ok (t.insert p) := by
  unfold KDTree.insertE KDTree.insert
  rw [recursive_insertE_ok]
  cases t.rect <;> rfl

/-- C10: `range_query` depends on the radius only through its square, so a
radius and its negation return the identical sequence. -/
theorem C10_range_query_radius_sign (t : KDTree) (q : Pt) (r : Scalar) :
    t.range_query q r = t.range_query q (-r) := by
  unfold KDTree.range_query
  rw [neg_mul_neg]
